import Mathlib

/-!
Shallow embedding of the orchestration core of the `infra-cli-pipeline`
repository, together with proofs checking the specification's claims.

The embedding follows the Python sources:
* `src/infra_cli/utils/checkpoints.py` (checkpoint ledger),
* `src/infra_cli/utils/backoff.py` (retry combinator),
* `src/infra_cli/utils/rate_limiter.py` (token bucket),
* `src/infra_cli/stages/discover.py` (file discovery),
* `src/infra_cli/pipeline.py` (orchestrator `run` and `bench`).

Strings are modelled as `List Char`, paths as lists of path segments,
clock readings and float arithmetic as exact rationals, and fallible
operations as `Except` values.
-/

/-! ### Checkpoint ledger (`utils/checkpoints.py`) -/

/-- Whitespace characters removed by Python `str.strip()` (ASCII set). -/
def isPySpace (c : Char) : Bool :=
  c = ' ' || c = '\t' || c = '\n' || c = '\r' || c = '\x0b' || c = '\x0c'

/-- Python `str.strip()`: drop leading and trailing whitespace. -/
def pyStrip (s : List Char) : List Char :=
  ((s.dropWhile isPySpace).reverse.dropWhile isPySpace).reverse

/-- Split a character stream at newline characters.  Iterating a Python text
file yields lines with terminators attached; after `strip()` this is
equivalent to splitting at each newline and stripping each chunk (a trailing
newline contributes a final blank chunk, which the blank-line filter drops). -/
def splitNL : List Char → List (List Char)
  | [] => [[]]
  | c :: rest =>
    if c = '\n' then [] :: splitNL rest
    else
      match splitNL rest with
      | [] => [[c]]
      | l :: ls => (c :: l) :: ls

/-- `CheckpointManager.__init__` ledger load: every line of the existing
ledger is stripped; non-blank results are added to the in-memory set. -/
def loadLedger (content : List Char) : List (List Char) :=
  ((splitNL content).map pyStrip).filter (fun l => l ≠ [])

/-- In-memory state of a `CheckpointManager`: the ledger file content on disk
and the in-memory `processed` set (as a list of entries). -/
structure CheckpointState where
  file : List Char
  processed : List (List Char)
deriving DecidableEq, Repr

/-- `CheckpointManager.is_processed`: pure membership query. -/
def is_processed (st : CheckpointState) (h : List Char) : Bool :=
  st.processed.contains h

/-- `CheckpointManager.mark_processed`.  `appendOk` models whether the durable
append (the `open("a")`/`write` block), if attempted, succeeds; when it raises,
the exception propagates before `self.processed.add`, so the error result
carries the unchanged in-memory set (the on-disk bytes of a failed write are
not modelled). -/
def mark_processed (st : CheckpointState) (h : List Char) (appendOk : Bool) :
    Except (List (List Char)) CheckpointState :=
  if st.processed.contains h then .ok st
  else if appendOk then
    .ok { file := st.file ++ h ++ ['\n'], processed := st.processed ++ [h] }
  else .error st.processed

/-- Hexadecimal digit as produced by `hashlib.sha256().hexdigest()`. -/
def isHexDigit (c : Char) : Bool :=
  c.isDigit || ('a' ≤ c && c ≤ 'f')

/-- A fingerprint: non-empty string of lowercase hex digits. -/
def isFingerprint (h : List Char) : Bool :=
  !h.isEmpty && h.all isHexDigit

/-- A ledger file in the documented format: empty, or ending with the line
terminator (every appended entry is written as `fingerprint + "\n"`). -/
def LedgerTerminated (content : List Char) : Prop :=
  content = [] ∨ ∃ pre, content = pre ++ ['\n']

/-! ### Retry combinator (`utils/backoff.py`) -/

/-- Result of one call of the wrapped operation: a success value, a failure
matching the retryable `exceptions` tuple, or a non-matching failure. -/
inductive CallResult (α ε : Type) where
  | ok (value : α)
  | retryable (e : ε)
  | fatal (e : ε)
deriving DecidableEq, Repr

/-- Result of the retry wrapper: the returned value or the re-raised failure,
together with the total number of calls made to the wrapped operation. -/
inductive RetryOutcome (α ε : Type) where
  | value (v : α) (calls : Nat)
  | raised (e : ε) (calls : Nat)
deriving DecidableEq, Repr

/-- The `while True` loop of `retry`'s `wrapper`, with `op i` the outcome of
the `i`-th call of `func`.  `remaining = retries - attempts` counts how many
further failures are tolerated; the code raises when `attempts >= retries`. -/
def retryGo (op : Nat → CallResult α ε) : Nat → Nat → RetryOutcome α ε
  | attempts, 0 =>
    (match op attempts with
     | .ok v => .value v (attempts + 1)
     | .fatal e => .raised e (attempts + 1)
     | .retryable e => .raised e (attempts + 1))
  | attempts, r + 1 =>
    match op attempts with
    | .ok v => .value v (attempts + 1)
    | .fatal e => .raised e (attempts + 1)
    | .retryable _ => retryGo op (attempts + 1) r

/-- `retry(func, retries, ...)` applied to its arguments: run the wrapper
starting from `attempts = 0`. -/
def retry (op : Nat → CallResult α ε) (retries : Nat) : RetryOutcome α ε :=
  retryGo op 0 retries

/-! ### Token bucket (`utils/rate_limiter.py`) -/

/-- State of a `RateLimiter`: configured rate and capacity, current token
count, and the monotonic-clock reading of the last refill check. -/
structure RateLimiter where
  rate : ℚ
  capacity : ℚ
  tokens : ℚ
  lastChecked : ℚ
deriving DecidableEq, Repr

/-- `RateLimiter.__init__` at monotonic time `now`: raise if the rate is
non-positive, default the capacity to the rate, start with a full bucket. -/
def RateLimiter.init (rate_per_sec : ℚ) (capacity : Option ℚ) (now : ℚ) :
    Except String RateLimiter :=
  if rate_per_sec ≤ 0 then .error ("rate_per_sec must be positive")
  else
    let cap := capacity.getD rate_per_sec
    .ok { rate := rate_per_sec, capacity := cap, tokens := cap, lastChecked := now }

/-- The refill step of `acquire`: add `elapsed * rate` tokens capped at the
capacity and update the refill timestamp. -/
def RateLimiter.refill (rl : RateLimiter) (now : ℚ) : RateLimiter :=
  { rl with
    tokens := min rl.capacity (rl.tokens + (now - rl.lastChecked) * rl.rate)
    lastChecked := now }

/-- `RateLimiter.acquire` called at monotonic time `now`, for a single caller
with no competing consumers: refill; if fewer than one token remains, sleep
`(1 - tokens) / rate` (waking exactly then), refill again, and consume; else
consume immediately.  Returns the new state and the slept duration. -/
def RateLimiter.acquire (rl : RateLimiter) (now : ℚ) : RateLimiter × ℚ :=
  let r1 := rl.refill now
  if r1.tokens < 1 then
    let sleepTime := (1 - r1.tokens) / r1.rate
    let r2 := r1.refill (now + sleepTime)
    ({ r2 with tokens := r2.tokens - 1 }, sleepTime)
  else
    ({ r1 with tokens := r1.tokens - 1 }, 0)

/-- `n` back-to-back sequential `acquire()` calls by a single caller (each
call issued at the clock reading left by the previous one); returns the final
state and the total slept duration. -/
def seqAcquire (rl : RateLimiter) : Nat → RateLimiter × ℚ
  | 0 => (rl, 0)
  | n + 1 =>
    let p := rl.acquire rl.lastChecked
    let q := seqAcquire p.1 n
    (q.1, p.2 + q.2)

/-! ### Discovery (`stages/discover.py`) -/

/-- Python `str.startswith(".")`. -/
def startsWithDot : List Char → Bool
  | c :: _ => c = '.'
  | [] => false

/-- Python `pathlib.PurePath.suffix` on a file name: the part from the last
dot, provided that dot is neither the first nor the last character. -/
def pySuffix (name : List Char) : List Char :=
  let after := name.reverse.takeWhile (fun c => c ≠ '.')
  if after.length + 1 < name.length ∧ 0 < after.length then
    '.' :: after.reverse
  else []

/-- The fixed `SUPPORTED_SUFFIXES` set. -/
def SUPPORTED_SUFFIXES : List (List Char) :=
  [['.', 'p', 'd', 'f'], ['.', 't', 'x', 't']]

/-- The predicate `discover` applies to each regular file below the root.  A
path is a list of segments; `rglob` yields the full path, so its segments
include those of the root itself. -/
def discoverKeep (p : List (List Char)) : Bool :=
  !(p.any startsWithDot) &&
    SUPPORTED_SUFFIXES.contains ((pySuffix (p.getLastD [])).map Char.toLower)

/-- `discover(input_dir)`: of the regular files below the root (given here as
`files`, each as its full segment list), keep those with no hidden segment
anywhere in the path and a supported (case-insensitive) extension. -/
def discover (files : List (List (List Char))) : List (List (List Char)) :=
  files.filter discoverKeep

/-! ### Bench percentile (`Pipeline.bench`) -/

/-- Insertion of one element into an ascending list. -/
def insertAsc (x : ℚ) : List ℚ → List ℚ
  | [] => [x]
  | y :: ys => if x ≤ y then x :: y :: ys else y :: insertAsc x ys

/-- Ascending sort, the value-level behaviour of Python `sorted`. -/
def sortAsc (l : List ℚ) : List ℚ :=
  l.foldr insertAsc []

/-- Python `max(x :: xs)`. -/
def listMax (x : ℚ) (xs : List ℚ) : ℚ :=
  xs.foldl max x

/-- The p95 computation of `Pipeline.bench` over the recorded latencies,
modelling the float expression `int(0.95 * n)` exactly as `⌊19n/20⌋`:
for at least 20 samples, index `int(0.95 * n) - 1` clamped to be at least 0
into the ascending-sorted latencies; for fewer, the maximum; 0 when empty. -/
def bench_p95 : List ℚ → ℚ
  | [] => 0
  | x :: xs =>
    if 20 ≤ (x :: xs).length then
      let sorted := sortAsc (x :: xs)
      let index : Int := (19 * (x :: xs).length : Int) / 20 - 1
      sorted.getD (max 0 index).toNat 0
    else listMax x xs

/-- Modelled from the spec: the claimed nearest-rank p95, the element of the
ascending-sorted latencies at nearest-rank position `⌈0.95 * count⌉` (as a
1-based rank, so 0-based index `⌈0.95 * count⌉ - 1`), clamped to be at least
0.  The ceiling `⌈19 * n / 20⌉` is computed exactly as `(19 * n + 19) / 20`
in natural-number arithmetic, and the truncated subtraction performs the
clamping. -/
def specNearestRankP95 (l : List ℚ) : ℚ :=
  (sortAsc l).getD ((19 * l.length + 19) / 20 - 1) 0

/-! ### Pipeline run (`pipeline.py`) -/

/-- The dictionary returned by `DummyClassifier.classify`. -/
structure Classification where
  label : List Char
  words : Nat
deriving DecidableEq, Repr

/-- One output record: `{"id": file_hash, "path": str(path), **classification}`. -/
structure RunRecord (Path Fp : Type) where
  id : Fp
  path : Path
  label : List Char
  words : Nat
deriving DecidableEq, Repr

/-- Build the output record for a completed task. -/
def mkRecord {Path Fp : Type} (hashf : Path → Fp) (p : Path) (c : Classification) :
    RunRecord Path Fp :=
  { id := hashf p, path := p, label := c.label, words := c.words }

/-- The submission loop of `Pipeline.run`: each candidate is hashed and
skipped when `is_processed`; nothing marks the checkpoint during this phase,
so the whole loop filters against the initial checkpoint set. -/
def submitList {Path Fp : Type} [DecidableEq Fp] (cp : List Fp) (hashf : Path → Fp)
    (cands : List Path) : List Path :=
  cands.filter (fun p => !(cp.contains (hashf p)))

/-- Set-level `mark_processed` on the in-memory checkpoint set. -/
def markFp {Fp : Type} [DecidableEq Fp] (cp : List Fp) (fp : Fp) : List Fp :=
  if cp.contains fp then cp else cp ++ [fp]

/-- The completion loop of `Pipeline.run` over the submitted tasks in
completion order.  `outcome p` is the combined result of `future.result()`
(the retry-wrapped parse) followed by the retry-wrapped classify: on success
the record is appended to the output and the fingerprint marked; on failure
(after retries are exhausted) the error is logged and the loop continues with
neither an output record nor a checkpoint mark. -/
def completeTasks {Path Fp ε : Type} [DecidableEq Fp] (hashf : Path → Fp)
    (outcome : Path → Except ε Classification) :
    List Path → List Fp → List (RunRecord Path Fp) →
      List Fp × List (RunRecord Path Fp)
  | [], cp, out => (cp, out)
  | p :: rest, cp, out =>
    match outcome p with
    | .ok c => completeTasks hashf outcome rest (markFp cp (hashf p)) (out ++ [mkRecord hashf p c])
    | .error _ => completeTasks hashf outcome rest cp out

/-! ### Lemmas about the ledger parse -/

theorem splitNL_ne_nil : ∀ s : List Char, splitNL s ≠ []
  | [] => by simp [splitNL]
  | c :: rest => by
    simp only [splitNL]
    split
    · simp
    · cases h : splitNL rest <;> simp

theorem two_le_splitNL_newline (xs : List Char) :
    2 ≤ (splitNL (xs ++ ['\n'])).length := by
  induction xs with
  | nil => simp [splitNL]
  | cons c rest ih =>
    simp only [List.cons_append, splitNL]
    split
    · simpa using Nat.le_succ_of_le ih
    · cases h : splitNL (rest ++ ['\n']) with
      | nil => exact absurd h (splitNL_ne_nil _)
      | cons l ls => simpa [h] using ih

theorem splitNL_no_newline (h : List Char) (hh : '\n' ∉ h) :
    splitNL (h ++ ['\n']) = [h, []] := by
  induction h with
  | nil => simp [splitNL]
  | cons c rest ih =>
    have hc : c ≠ '\n' := fun e => hh (e ▸ List.mem_cons_self c rest)
    have hrest : '\n' ∉ rest := fun e => hh (List.mem_cons_of_mem c e)
    simp only [List.cons_append, splitNL, if_neg hc, List.append_eq, ih hrest]

theorem splitNL_cons_newline (rest : List Char) :
    splitNL ('\n' :: rest) = [] :: splitNL rest := by
  simp [splitNL]

theorem splitNL_cons_other (c : Char) (hc : c ≠ '\n') (rest l : List Char)
    (ls : List (List Char)) (hrest : splitNL rest = l :: ls) :
    splitNL (c :: rest) = (c :: l) :: ls := by
  simp only [splitNL, if_neg hc, hrest]

theorem splitNL_terminated_append (pre ys : List Char) :
    splitNL ((pre ++ ['\n']) ++ ys) =
      (splitNL (pre ++ ['\n'])).dropLast ++ splitNL ys := by
  induction pre with
  | nil => simp [splitNL]
  | cons c rest ih =>
    by_cases hc : c = '\n'
    · subst hc
      have e1 : (('\n' :: rest) ++ ['\n']) ++ ys = '\n' :: (rest ++ ['\n'] ++ ys) := by simp
      have e2 : ('\n' :: rest) ++ ['\n'] = '\n' :: (rest ++ ['\n']) := by simp
      obtain ⟨l0, S, hS⟩ : ∃ l0 S, splitNL (rest ++ ['\n']) = l0 :: S := by
        cases h : splitNL (rest ++ ['\n']) with
        | nil => exact absurd h (splitNL_ne_nil _)
        | cons a b => exact ⟨a, b, rfl⟩
      rw [e1, e2, splitNL_cons_newline, splitNL_cons_newline, ih, hS,
        List.dropLast_cons₂]
      simp
    · have h2 := two_le_splitNL_newline rest
      obtain ⟨l0, S, hS⟩ : ∃ l0 S, splitNL (rest ++ ['\n']) = l0 :: S := by
        cases h : splitNL (rest ++ ['\n']) with
        | nil => exact absurd h (splitNL_ne_nil _)
        | cons a b => exact ⟨a, b, rfl⟩
      obtain ⟨s1, S', hS'⟩ : ∃ s1 S', S = s1 :: S' := by
        cases hs : S with
        | nil => rw [hS, hs] at h2; simp at h2
        | cons a b => exact ⟨a, b, rfl⟩
      subst hS'
      have e1 : ((c :: rest) ++ ['\n']) ++ ys = c :: (rest ++ ['\n'] ++ ys) := by simp
      have e2 : (c :: rest) ++ ['\n'] = c :: (rest ++ ['\n']) := by simp
      have h3 : splitNL (rest ++ ['\n'] ++ ys) =
          l0 :: (List.dropLast (s1 :: S') ++ splitNL ys) := by
        rw [ih, hS, List.dropLast_cons₂]
        simp
      rw [e1, splitNL_cons_other c hc _ _ _ h3, e2, splitNL_cons_other c hc _ _ _ hS,
        List.dropLast_cons₂]
      simp

theorem dropWhile_all_false {p : Char → Bool} :
    ∀ l : List Char, (∀ c ∈ l, p c = false) → l.dropWhile p = l
  | [], _ => rfl
  | a :: t, h => by
    rw [List.dropWhile_cons, h a (List.mem_cons_self a t)]
    simp

theorem pyStrip_eq_self (h : List Char) (hs : ∀ c ∈ h, isPySpace c = false) :
    pyStrip h = h := by
  unfold pyStrip
  rw [dropWhile_all_false h hs, dropWhile_all_false h.reverse
    (fun c hc => hs c (List.mem_reverse.mp hc)), List.reverse_reverse]

theorem space_not_hex (c : Char) (hsp : isPySpace c = true) : isHexDigit c = false := by
  simp only [isPySpace, Bool.or_eq_true, decide_eq_true_eq] at hsp
  rcases hsp with ((((h | h) | h) | h) | h) | h <;> subst h <;> decide

theorem fingerprint_chars (h : List Char) (hfp : isFingerprint h = true) :
    h ≠ [] ∧ (∀ c ∈ h, isPySpace c = false) ∧ '\n' ∉ h := by
  simp only [isFingerprint, Bool.and_eq_true, List.all_eq_true] at hfp
  obtain ⟨hne0, hall⟩ := hfp
  have hne : h ≠ [] := by
    intro he
    subst he
    simp at hne0
  refine ⟨hne, fun c hc => ?_, fun hnl => ?_⟩
  · have hhex := hall c hc
    by_cases hsp : isPySpace c = true
    · rw [space_not_hex c hsp] at hhex
      exact absurd hhex (by simp)
    · simpa using hsp
  · have hhex := hall _ hnl
    simp [isHexDigit] at hhex

theorem mem_loadLedger_append (file h : List Char) (hfp : isFingerprint h = true)
    (hterm : LedgerTerminated file) : h ∈ loadLedger (file ++ h ++ ['\n']) := by
  obtain ⟨hne, hnospace, hnonl⟩ := fingerprint_chars h hfp
  have hsplit : h ∈ splitNL (file ++ h ++ ['\n']) := by
    rcases hterm with hnil | ⟨pre, hpre⟩
    · subst hnil
      rw [List.nil_append, splitNL_no_newline h hnonl]
      simp
    · subst hpre
      rw [List.append_assoc (pre ++ ['\n']) h ['\n'], splitNL_terminated_append,
        splitNL_no_newline h hnonl]
      simp
  have hmap : h ∈ (splitNL (file ++ h ++ ['\n'])).map pyStrip := by
    refine List.mem_map.mpr ⟨h, hsplit, pyStrip_eq_self h hnospace⟩
  exact List.mem_filter.mpr ⟨hmap, by simpa using hne⟩

/-- C3: for every fingerprint h (non-empty hex, no whitespace), after
`mark_processed(h)` returns on a manager whose in-memory set mirrors a
well-formed (line-terminated) ledger file, a fresh `CheckpointManager`
constructed against the same ledger path loads a set in which
`is_processed(h)` holds: the appended line round-trips through the
load-on-construction parse. -/
theorem checkpoint_durability_roundtrip (file h : List Char) (mem : List (List Char))
    (hfp : isFingerprint h = true) (hterm : LedgerTerminated file)
    (hmem : mem = loadLedger file) :
    ∃ st, mark_processed ⟨file, mem⟩ h true = Except.ok st ∧
      is_processed ⟨st.file, loadLedger st.file⟩ h = true := by
  by_cases hc : h ∈ mem
  · refine ⟨⟨file, mem⟩, ?_, ?_⟩
    · simp [mark_processed, hc]
    · have hm : h ∈ loadLedger file := hmem ▸ hc
      simpa [is_processed] using hm
  · refine ⟨⟨file ++ h ++ ['\n'], mem ++ [h]⟩, ?_, ?_⟩
    · simp [mark_processed, hc]
    · have hm := mem_loadLedger_append file h hfp hterm
      simpa [is_processed] using hm

/-- C3 witness: marking the fingerprint `ab` on a manager over an empty
ledger durably records it for a fresh manager. -/
theorem checkpoint_durability_roundtrip_witness :
    ∃ st, mark_processed ⟨[], []⟩ ['a', 'b'] true = Except.ok st ∧
      is_processed ⟨st.file, loadLedger st.file⟩ ['a', 'b'] = true :=
  checkpoint_durability_roundtrip [] ['a', 'b'] [] (by decide) (Or.inl rfl) (by decide)

/-- C5 counterexample: the line `x!` is not a well-formed fingerprint, yet
loading a ledger consisting of that single line adds it to the in-memory set
(the claim says malformed lines are not added). -/
theorem ledger_load_malformed_cex :
    isFingerprint ['x', '!'] = false ∧
      loadLedger ['x', '!', '\n'] = [['x', '!']] ∧
      is_processed ⟨['x', '!', '\n'], loadLedger ['x', '!', '\n']⟩ ['x', '!'] = true := by
  decide

/-- C5 (amended): constructing a CheckpointStore loads exactly the stripped
non-blank lines of the ledger into the in-memory set, without error: blank
(all-whitespace) lines are skipped, and every other line — malformed or not —
is added verbatim after stripping; no validation of the line content occurs. -/
theorem ledger_load_characterization (content l : List Char) :
    l ∈ loadLedger content ↔ l ∈ (splitNL content).map pyStrip ∧ l ≠ [] := by
  simp [loadLedger, List.mem_filter]

/-- C10: if the fingerprint is not already in the in-memory set and the
durable append raises an I/O error, `mark_processed` leaves the in-memory set
unchanged (the set is only updated after the append completes), so a later
call attempts the durable append again and records the fingerprint. -/
theorem mark_processed_append_failure (st : CheckpointState) (h : List Char)
    (hnot : h ∉ st.processed) :
    mark_processed st h false = Except.error st.processed ∧
      mark_processed st h true =
        Except.ok ⟨st.file ++ h ++ ['\n'], st.processed ++ [h]⟩ := by
  constructor <;> simp [mark_processed, hnot]

/-- C10 witness: a failed append on an empty manager reports the unchanged
empty set; the retried call appends and records the fingerprint. -/
theorem mark_processed_append_failure_witness :
    mark_processed ⟨[], []⟩ ['a'] false = Except.error [] ∧
      mark_processed ⟨[], []⟩ ['a'] true = Except.ok ⟨['a', '\n'], [['a']]⟩ :=
  mark_processed_append_failure ⟨[], []⟩ ['a'] (by decide)

/-! ### Lemmas about the retry combinator -/

theorem retryGo_ok (op : Nat → CallResult α ε) (attempts remaining : Nat) (v : α)
    (hop : op attempts = .ok v) :
    retryGo op attempts remaining = .value v (attempts + 1) := by
  cases remaining <;> simp [retryGo, hop]

theorem retryGo_step (op : Nat → CallResult α ε) (attempts r : Nat) (e : ε)
    (hop : op attempts = .retryable e) :
    retryGo op attempts (r + 1) = retryGo op (attempts + 1) r := by
  simp [retryGo, hop]

theorem retryGo_value (op : Nat → CallResult α ε) (v : α) :
    ∀ (k attempts remaining : Nat), k ≤ remaining →
      (∀ i, i < k → ∃ e, op (attempts + i) = CallResult.retryable e) →
      op (attempts + k) = CallResult.ok v →
      retryGo op attempts remaining = .value v (attempts + k + 1)
  | 0, attempts, remaining, _, _, hsucc => by
    simpa using retryGo_ok op attempts remaining v (by simpa using hsucc)
  | k + 1, attempts, remaining, hle, hfail, hsucc => by
    obtain ⟨r, rfl⟩ : ∃ r, remaining = r + 1 :=
      ⟨remaining - 1, (Nat.succ_pred_eq_of_pos (Nat.lt_of_lt_of_le (Nat.succ_pos k) hle)).symm⟩
    obtain ⟨e, he⟩ := hfail 0 (Nat.succ_pos k)
    rw [retryGo_step op attempts r e (by simpa using he)]
    have := retryGo_value op v k (attempts + 1) r (Nat.le_of_succ_le_succ hle)
      (fun i hi => by
        obtain ⟨e2, he2⟩ := hfail (i + 1) (Nat.succ_lt_succ hi)
        exact ⟨e2, by rw [← he2]; ring_nf⟩)
      (by rw [← hsucc]; ring_nf)
    rw [this]
    ring_nf

theorem retryGo_raised (op : Nat → CallResult α ε) (em : Nat → ε)
    (hfail : ∀ i, op i = CallResult.retryable (em i)) :
    ∀ (remaining attempts : Nat),
      retryGo op attempts remaining = .raised (em (attempts + remaining)) (attempts + remaining + 1)
  | 0, attempts => by simp [retryGo, hfail attempts]
  | r + 1, attempts => by
    rw [retryGo_step op attempts r (em attempts) (hfail attempts),
      retryGo_raised op em hfail r (attempts + 1)]
    ring_nf

/-- C2: wrapping an operation with `retry(op, retries)`: if the operation
fails with a retryable error exactly `k < retries` times and then succeeds
with value `v`, the wrapper calls it exactly `k + 1` times and returns `v`;
if it fails with a retryable error on every call, the wrapper calls it
exactly `retries + 1` times and re-raises the failure of the last call. -/
theorem retry_exact_attempt_count (op : Nat → CallResult α ε) (retries k : Nat)
    (v : α) (em : Nat → ε) :
    (k < retries → (∀ i, i < k → ∃ e, op i = CallResult.retryable e) →
      op k = CallResult.ok v → retry op retries = .value v (k + 1)) ∧
    ((∀ i, op i = CallResult.retryable (em i)) →
      retry op retries = .raised (em retries) (retries + 1)) := by
  constructor
  · intro hk hfail hsucc
    have := retryGo_value op v k 0 retries (Nat.le_of_lt hk)
      (fun i hi => by simpa using hfail i hi) (by simpa using hsucc)
    simpa [retry] using this
  · intro hfail
    have := retryGo_raised op em hfail retries 0
    simpa [retry] using this

/-- C2 witness: an operation failing once then succeeding with 42, wrapped
with retries = 3, is called exactly twice and returns 42. -/
theorem retry_exact_attempt_count_witness :
    retry (fun i => if i = 0 then CallResult.retryable 7 else CallResult.ok 42) 3 =
      RetryOutcome.value 42 2 :=
  (retry_exact_attempt_count
      (fun i => if i = 0 then CallResult.retryable 7 else CallResult.ok 42) 3 1 42
      (fun _ => 7)).1
    (by decide)
    (fun i hi => ⟨7, by interval_cases i; rfl⟩)
    (by rfl)

/-! ### Lemmas about the token bucket -/

theorem acquire_eq_sleep (rl : RateLimiter) (hc : rl.tokens ≤ rl.capacity)
    (ht : rl.tokens < 1) :
    rl.acquire rl.lastChecked =
      ({ rate := rl.rate, capacity := rl.capacity,
         tokens := min rl.capacity (rl.tokens + (1 - rl.tokens) / rl.rate * rl.rate) - 1,
         lastChecked := rl.lastChecked + (1 - rl.tokens) / rl.rate },
       (1 - rl.tokens) / rl.rate) := by
  unfold RateLimiter.acquire RateLimiter.refill
  simp only [sub_self, zero_mul, add_zero, min_eq_right hc, if_pos ht,
    add_sub_cancel_left]

theorem acquire_eq_go (rl : RateLimiter) (hc : rl.tokens ≤ rl.capacity)
    (ht : ¬rl.tokens < 1) :
    rl.acquire rl.lastChecked =
      ({ rate := rl.rate, capacity := rl.capacity, tokens := rl.tokens - 1,
         lastChecked := rl.lastChecked }, 0) := by
  unfold RateLimiter.acquire RateLimiter.refill
  simp only [sub_self, zero_mul, add_zero, min_eq_right hc, if_neg ht]

theorem acquire_step (rl : RateLimiter) (hr : 0 < rl.rate)
    (hc : rl.tokens ≤ rl.capacity) :
    (rl.acquire rl.lastChecked).1.rate = rl.rate ∧
    (rl.acquire rl.lastChecked).1.capacity = rl.capacity ∧
    (rl.acquire rl.lastChecked).1.tokens ≤ rl.capacity ∧
    0 ≤ (rl.acquire rl.lastChecked).2 ∧
    max (rl.acquire rl.lastChecked).1.tokens 0 ≤
      max rl.tokens 0 - 1 + (rl.acquire rl.lastChecked).2 * rl.rate := by
  by_cases ht : rl.tokens < 1
  · rw [acquire_eq_sleep rl hc ht]
    dsimp only
    have hsr : (1 - rl.tokens) / rl.rate * rl.rate = 1 - rl.tokens :=
      div_mul_cancel₀ _ (ne_of_gt hr)
    have hs0 : 0 ≤ (1 - rl.tokens) / rl.rate :=
      div_nonneg (by linarith) hr.le
    have hm1 : min rl.capacity (rl.tokens + (1 - rl.tokens) / rl.rate * rl.rate) - 1 ≤
        rl.capacity := by
      have := min_le_left rl.capacity (rl.tokens + (1 - rl.tokens) / rl.rate * rl.rate)
      linarith
    refine ⟨rfl, rfl, hm1, hs0, ?_⟩
    have hm0 : min rl.capacity (rl.tokens + (1 - rl.tokens) / rl.rate * rl.rate) - 1 ≤ 0 := by
      rw [hsr]
      have := min_le_right rl.capacity (rl.tokens + (1 - rl.tokens))
      linarith
    rw [max_eq_right hm0, hsr]
    have := le_max_left rl.tokens (0 : ℚ)
    linarith
  · rw [acquire_eq_go rl hc ht]
    dsimp only
    push_neg at ht
    refine ⟨rfl, rfl, by linarith, le_refl 0, ?_⟩
    rw [max_eq_left (by linarith : (0 : ℚ) ≤ rl.tokens - 1),
      max_eq_left (by linarith : (0 : ℚ) ≤ rl.tokens)]
    linarith

theorem seqAcquire_invariant :
    ∀ (n : Nat) (rl : RateLimiter), 0 < rl.rate → rl.tokens ≤ rl.capacity →
      (seqAcquire rl n).1.rate = rl.rate ∧
      (seqAcquire rl n).1.capacity = rl.capacity ∧
      (seqAcquire rl n).1.tokens ≤ rl.capacity ∧
      0 ≤ (seqAcquire rl n).2 ∧
      max (seqAcquire rl n).1.tokens 0 ≤
        max rl.tokens 0 - n + (seqAcquire rl n).2 * rl.rate
  | 0, rl, _, hc => by
    refine ⟨rfl, rfl, hc, le_refl 0, by simp [seqAcquire]⟩
  | n + 1, rl, hr, hc => by
    obtain ⟨h1, h2, h3, h4, h5⟩ := acquire_step rl hr hc
    have hr2 : 0 < (rl.acquire rl.lastChecked).1.rate := h1 ▸ hr
    have hc2 : (rl.acquire rl.lastChecked).1.tokens ≤
        (rl.acquire rl.lastChecked).1.capacity := h2 ▸ h3
    obtain ⟨g1, g2, g3, g4, g5⟩ := seqAcquire_invariant n (rl.acquire rl.lastChecked).1 hr2 hc2
    have e1 : (seqAcquire rl (n + 1)).1 = (seqAcquire (rl.acquire rl.lastChecked).1 n).1 := rfl
    have e2 : (seqAcquire rl (n + 1)).2 =
        (rl.acquire rl.lastChecked).2 + (seqAcquire (rl.acquire rl.lastChecked).1 n).2 := rfl
    rw [e1, e2]
    refine ⟨g1.trans h1, g2.trans h2, h2 ▸ g3, by linarith, ?_⟩
    rw [h1] at g5
    have hmax0 : (0 : ℚ) ≤ max rl.tokens 0 := le_max_right _ _
    push_cast
    rw [h2] at g3
    calc max (seqAcquire (rl.acquire rl.lastChecked).1 n).1.tokens 0
        ≤ max (rl.acquire rl.lastChecked).1.tokens 0 - n +
            (seqAcquire (rl.acquire rl.lastChecked).1 n).2 * rl.rate := g5
      _ ≤ (max rl.tokens 0 - 1 + (rl.acquire rl.lastChecked).2 * rl.rate) - n +
            (seqAcquire (rl.acquire rl.lastChecked).1 n).2 * rl.rate := by linarith
      _ = max rl.tokens 0 - (n + 1) +
            ((rl.acquire rl.lastChecked).2 +
              (seqAcquire (rl.acquire rl.lastChecked).1 n).2) * rl.rate := by ring

/-- C9: for a `RateLimiter` with capacity C and rate R (modelling the
monotonic clock and sleeps as explicit state), N back-to-back sequential
`acquire()` calls by a single caller with no competing consumers, starting
from a full bucket, accumulate total sleep time of at least `(N - C) / R`
seconds when `N > C`; and each individual `acquire` blocks for exactly the
bounded, computable duration `(1 - tokens) / rate` (0 when a token is
available), which is never negative. -/
theorem rate_limiter_sleep_lower_bound (R C start now : ℚ) (N : Nat)
    (rl : RateLimiter) (hR : 0 < R) (hC : 0 ≤ C) (_hN : C < (N : ℚ))
    (hrl : 0 < rl.rate) :
    ((N : ℚ) - C) / R ≤ (seqAcquire ⟨R, C, C, start⟩ N).2 ∧
    (rl.acquire now).2 =
      (if (rl.refill now).tokens < 1 then (1 - (rl.refill now).tokens) / rl.rate
       else 0) ∧
    0 ≤ (rl.acquire now).2 := by
  have hrate : (rl.refill now).rate = rl.rate := rfl
  have hsleep : (rl.acquire now).2 =
      (if (rl.refill now).tokens < 1 then (1 - (rl.refill now).tokens) / rl.rate
       else 0) := by
    by_cases h : (rl.refill now).tokens < 1 <;>
      simp [RateLimiter.acquire, h, hrate]
  refine ⟨?_, hsleep, ?_⟩
  · obtain ⟨_, _, _, h4, h5⟩ :=
      seqAcquire_invariant N ⟨R, C, C, start⟩ hR (le_refl C)
    have hmaxC : max (⟨R, C, C, start⟩ : RateLimiter).tokens 0 = C := max_eq_left hC
    rw [hmaxC] at h5
    have h0 : (0 : ℚ) ≤ max (seqAcquire ⟨R, C, C, start⟩ N).1.tokens 0 := le_max_right _ _
    rw [div_le_iff₀ hR]
    have : (seqAcquire ⟨R, C, C, start⟩ N).2 * (⟨R, C, C, start⟩ : RateLimiter).rate =
        (seqAcquire ⟨R, C, C, start⟩ N).2 * R := rfl
    linarith [h5]
  · rw [hsleep]
    split
    · next h =>
      exact div_nonneg (by linarith) hrl.le
    · exact le_refl 0

/-- C9 witness: rate 5, capacity 5, 10 sequential acquires sleep at least
1 second in total; a concrete acquire call sleeps a non-negative computable
duration. -/
theorem rate_limiter_sleep_lower_bound_witness :
    ((10 : ℚ) - 5) / 5 ≤ (seqAcquire ⟨5, 5, 5, 0⟩ 10).2 ∧
    ((⟨5, 5, 0, 0⟩ : RateLimiter).acquire 0).2 =
      (if ((⟨5, 5, 0, 0⟩ : RateLimiter).refill 0).tokens < 1 then
        (1 - ((⟨5, 5, 0, 0⟩ : RateLimiter).refill 0).tokens) / (5 : ℚ)
       else 0) ∧
    0 ≤ ((⟨5, 5, 0, 0⟩ : RateLimiter).acquire 0).2 :=
  rate_limiter_sleep_lower_bound 5 5 0 0 10 ⟨5, 5, 0, 0⟩ (by norm_num) (by norm_num)
    (by norm_num) (by norm_num)

/-- C7 counterexample: constructing a `RateLimiter` with positive rate 1 and
non-positive capacity -1 succeeds (no error is raised), contradicting the
claim that construction raises when the capacity is non-positive. -/
theorem rate_limiter_init_capacity_cex :
    (-1 : ℚ) ≤ 0 ∧
      RateLimiter.init 1 (some (-1)) 0 =
        Except.ok { rate := 1, capacity := -1, tokens := -1, lastChecked := 0 } := by
  constructor
  · norm_num
  · simp [RateLimiter.init]

/-- C7 (amended): `RateLimiter` construction raises an error exactly when the
refill rate is non-positive; the capacity is never validated; with positive
rate and capacity omitted, construction succeeds and the capacity (and the
initial token count) equals the refill rate. -/
theorem rate_limiter_init_amended (r now : ℚ) (cap : Option ℚ) :
    (0 < r → RateLimiter.init r cap now =
      Except.ok { rate := r, capacity := cap.getD r, tokens := cap.getD r,
                  lastChecked := now }) ∧
    (r ≤ 0 → RateLimiter.init r cap now =
      Except.error ("rate_per_sec must be positive")) ∧
    (0 < r → RateLimiter.init r none now =
      Except.ok { rate := r, capacity := r, tokens := r, lastChecked := now }) := by
  refine ⟨fun h => ?_, fun h => ?_, fun h => ?_⟩
  · simp [RateLimiter.init, not_le.mpr h]
  · simp [RateLimiter.init, h]
  · simp [RateLimiter.init, not_le.mpr h]

/-- C7 witness: a limiter with rate 2 and capacity omitted constructs with
capacity 2. -/
theorem rate_limiter_init_amended_witness :
    RateLimiter.init 2 none 0 =
      Except.ok { rate := 2, capacity := 2, tokens := 2, lastChecked := 0 } :=
  (rate_limiter_init_amended 2 0 none).2.2 (by norm_num)

/-- C6 counterexample: the file `d/.h/f.txt` has a last segment that does not
start with the hidden marker and has supported extension `.txt`, yet
`discover` does not yield it, because the ancestor directory segment `.h`
starts with a dot — so ancestor segments do affect inclusion, contrary to the
claim's iff. -/
theorem discover_hidden_ancestor_cex :
    discover [[['d'], ['.', 'h'], ['f', '.', 't', 'x', 't']]] = [] ∧
      startsWithDot ['f', '.', 't', 'x', 't'] = false ∧
      SUPPORTED_SUFFIXES.contains
        ((pySuffix ['f', '.', 't', 'x', 't']).map Char.toLower) = true := by
  decide

/-- C6 (amended): `discover` yields a regular file below the root if and only
if no segment of its full path (the root's own segments included) starts with
the hidden-file marker and its extension, lowercased, is in the fixed
supported set. -/
theorem discover_filter_characterization (files : List (List (List Char)))
    (p : List (List Char)) :
    p ∈ discover files ↔
      p ∈ files ∧ (∀ part ∈ p, startsWithDot part = false) ∧
        (pySuffix (p.getLastD [])).map Char.toLower ∈ SUPPORTED_SUFFIXES := by
  simp [discover, discoverKeep, List.mem_filter, List.any_eq_false, and_assoc]

/-! ### Lemmas about the bench percentile -/

theorem listMax_mem : ∀ (xs : List ℚ) (x : ℚ), listMax x xs ∈ x :: xs
  | [], x => by simp [listMax]
  | y :: ys, x => by
    have hstep : listMax x (y :: ys) = listMax (max x y) ys := rfl
    have h := listMax_mem ys (max x y)
    rw [hstep]
    simp only [List.mem_cons] at h ⊢
    rcases h with h1 | h1
    · rcases max_choice x y with hm | hm
      · exact Or.inl (h1.trans hm)
      · exact Or.inr (Or.inl (h1.trans hm))
    · exact Or.inr (Or.inr h1)

theorem le_listMax : ∀ (xs : List ℚ) (x z : ℚ), z ∈ x :: xs → z ≤ listMax x xs
  | [], x, z, hz => by
    simp at hz
    simp [listMax, hz]
  | y :: ys, x, z, hz => by
    have hstep : listMax x (y :: ys) = listMax (max x y) ys := rfl
    rw [hstep]
    have hself : max x y ≤ listMax (max x y) ys :=
      le_listMax ys (max x y) (max x y) (List.mem_cons_self _ _)
    rcases List.mem_cons.mp hz with h1 | h1
    · rw [h1]
      exact le_trans (le_max_left x y) hself
    · rcases List.mem_cons.mp h1 with h2 | h2
      · rw [h2]
        exact le_trans (le_max_right x y) hself
      · exact le_listMax ys (max x y) z (List.mem_cons_of_mem _ h2)

/-- C8 counterexample: on 21 recorded latencies 0..20, `Pipeline.bench`
reports p95 = 18, the element at index `int(0.95 * 21) - 1 = 18` of the
sorted latencies, whereas the claimed nearest-rank position
`⌈0.95 * 21⌉ = 20` (0-based index 19) holds the value 19. -/
theorem bench_p95_index_cex :
    bench_p95 [0, 1, 2, 3, 4, 5, 6, 7, 8, 9, 10, 11, 12, 13, 14, 15, 16, 17, 18, 19, 20] = 18 ∧
      specNearestRankP95
        [0, 1, 2, 3, 4, 5, 6, 7, 8, 9, 10, 11, 12, 13, 14, 15, 16, 17, 18, 19, 20] = 19 ∧
      (18 : ℚ) ≠ 19 := by
  decide

/-- C8 (amended): in bench mode, for a non-empty list of recorded latencies,
if the count is at least 20 the reported p95 is the element of the
ascending-sorted latencies at index `int(0.95 * count) - 1` (the floor, minus
one, clamped to be at least 0); if the count is fewer than 20 the reported
p95 is the maximum observed latency. -/
theorem bench_p95_amended (l : List ℚ) (hne : l ≠ []) :
    (l.length < 20 → bench_p95 l ∈ l ∧ ∀ x ∈ l, x ≤ bench_p95 l) ∧
    (20 ≤ l.length → bench_p95 l =
      (sortAsc l).getD (max 0 ((19 * l.length : Int) / 20 - 1)).toNat 0) := by
  cases l with
  | nil => exact absurd rfl hne
  | cons x xs =>
    constructor
    · intro hlen
      have hnotle : ¬20 ≤ (x :: xs).length := Nat.not_le.mpr hlen
      have hb : bench_p95 (x :: xs) = listMax x xs := by
        simp only [bench_p95]
        rw [if_neg hnotle]
      rw [hb]
      exact ⟨listMax_mem xs x, fun z hz => le_listMax xs x z hz⟩
    · intro hlen
      simp only [bench_p95]
      rw [if_pos hlen]

/-- C8 witness: on three latencies the reported p95 is the maximum, which is
an element of the list bounding every recorded latency. -/
theorem bench_p95_amended_witness :
    bench_p95 [(1 : ℚ), 3, 2] ∈ [(1 : ℚ), 3, 2] ∧
      ∀ x ∈ [(1 : ℚ), 3, 2], x ≤ bench_p95 [(1 : ℚ), 3, 2] :=
  (bench_p95_amended [(1 : ℚ), 3, 2] (by decide)).1 (by decide)

/-! ### Lemmas about the pipeline run -/

theorem mem_markFp {Fp : Type} [DecidableEq Fp] (cp : List Fp) (f g : Fp) :
    f ∈ markFp cp g ↔ f ∈ cp ∨ f = g := by
  by_cases h : g ∈ cp
  · simp only [markFp]
    rw [if_pos (by simpa using h)]
    constructor
    · exact Or.inl
    · rintro (hf | rfl)
      · exact hf
      · exact h
  · simp only [markFp]
    rw [if_neg (by simpa using h)]
    simp [List.mem_append]

theorem completeTasks_cp_mono {Path Fp ε : Type} [DecidableEq Fp]
    (hashf : Path → Fp) (outcome : Path → Except ε Classification) (f : Fp) :
    ∀ (order : List Path) (cp : List Fp) (out : List (RunRecord Path Fp)),
      f ∈ cp → f ∈ (completeTasks hashf outcome order cp out).1
  | [], _, _, hf => hf
  | p :: rest, cp, out, hf => by
    simp only [completeTasks]
    cases houtp : outcome p with
    | ok c =>
      exact completeTasks_cp_mono hashf outcome f rest _ _ ((mem_markFp cp f (hashf p)).mpr (Or.inl hf))
    | error e =>
      exact completeTasks_cp_mono hashf outcome f rest _ _ hf

theorem completeTasks_marks_success {Path Fp ε : Type} [DecidableEq Fp]
    (hashf : Path → Fp) (outcome : Path → Except ε Classification) :
    ∀ (order : List Path) (cp : List Fp) (out : List (RunRecord Path Fp)) (p : Path),
      p ∈ order → (∃ c, outcome p = Except.ok c) →
      hashf p ∈ (completeTasks hashf outcome order cp out).1
  | [], _, _, p, hp, _ => absurd hp (List.not_mem_nil p)
  | q :: rest, cp, out, p, hp, hok => by
    simp only [completeTasks]
    rcases List.mem_cons.mp hp with rfl | hrest
    · obtain ⟨c, hc⟩ := hok
      rw [hc]
      exact completeTasks_cp_mono hashf outcome (hashf p) rest _ _
        ((mem_markFp cp (hashf p) (hashf p)).mpr (Or.inr rfl))
    · cases houtq : outcome q with
      | ok c => exact completeTasks_marks_success hashf outcome rest _ _ p hrest hok
      | error e => exact completeTasks_marks_success hashf outcome rest _ _ p hrest hok

theorem completeTasks_cp_no_mark {Path Fp ε : Type} [DecidableEq Fp]
    (hashf : Path → Fp) (outcome : Path → Except ε Classification) (f : Fp) :
    ∀ (order : List Path) (cp : List Fp) (out : List (RunRecord Path Fp)),
      f ∉ cp → (∀ q ∈ order, (∃ c, outcome q = Except.ok c) → hashf q ≠ f) →
      f ∉ (completeTasks hashf outcome order cp out).1
  | [], _, _, hf, _ => hf
  | q :: rest, cp, out, hf, hno => by
    simp only [completeTasks]
    cases houtq : outcome q with
    | ok c =>
      refine completeTasks_cp_no_mark hashf outcome f rest _ _ ?_
        (fun r hr => hno r (List.mem_cons_of_mem q hr))
      intro hmem
      rcases (mem_markFp cp f (hashf q)).mp hmem with hin | heq
      · exact hf hin
      · exact hno q (List.mem_cons_self q rest) ⟨c, houtq⟩ heq.symm
    | error e =>
      exact completeTasks_cp_no_mark hashf outcome f rest _ _ hf
        (fun r hr => hno r (List.mem_cons_of_mem q hr))

theorem completeTasks_out_eq {Path Fp ε : Type} [DecidableEq Fp]
    (hashf : Path → Fp) (outcome : Path → Except ε Classification) :
    ∀ (order : List Path) (cp : List Fp) (out : List (RunRecord Path Fp)),
      (completeTasks hashf outcome order cp out).2 =
        out ++ order.filterMap (fun p =>
          match outcome p with
          | .ok c => some (mkRecord hashf p c)
          | .error _ => none)
  | [], _, out => by simp [completeTasks]
  | p :: rest, cp, out => by
    simp only [completeTasks, List.filterMap_cons]
    cases houtp : outcome p with
    | ok c =>
      rw [completeTasks_out_eq hashf outcome rest _ _]
      simp
    | error e =>
      rw [completeTasks_out_eq hashf outcome rest _ _]

/-- C1: for an input set unchanged between two consecutive `Pipeline.run`
invocations sharing one checkpoint ledger, whose files all completed
successfully in the first run, every candidate's fingerprint is in the
checkpoint set after the first run, the second run's submission loop skips
every candidate (submits nothing), and the second run appends zero new output
records. -/
theorem pipeline_second_run_idempotent {Path Fp ε : Type} [DecidableEq Fp]
    (hashf : Path → Fp) (outcome : Path → Except ε Classification)
    (cands order1 order2 : List Path) (cp0 : List Fp)
    (out0 : List (RunRecord Path Fp))
    (hperm1 : order1.Perm (submitList cp0 hashf cands))
    (hsucc : ∀ p ∈ cands, ∃ c, outcome p = Except.ok c)
    (hperm2 : order2.Perm
      (submitList (completeTasks hashf outcome order1 cp0 out0).1 hashf cands)) :
    (∀ p ∈ cands, hashf p ∈ (completeTasks hashf outcome order1 cp0 out0).1) ∧
    submitList (completeTasks hashf outcome order1 cp0 out0).1 hashf cands = [] ∧
    (completeTasks hashf outcome order2
        (completeTasks hashf outcome order1 cp0 out0).1
        (completeTasks hashf outcome order1 cp0 out0).2).2 =
      (completeTasks hashf outcome order1 cp0 out0).2 := by
  have hmarked : ∀ p ∈ cands, hashf p ∈ (completeTasks hashf outcome order1 cp0 out0).1 := by
    intro p hp
    by_cases hin : hashf p ∈ cp0
    · exact completeTasks_cp_mono hashf outcome (hashf p) order1 cp0 out0 hin
    · have hsub : p ∈ submitList cp0 hashf cands := by
        refine List.mem_filter.mpr ⟨hp, ?_⟩
        simpa using hin
      have hord : p ∈ order1 := hperm1.mem_iff.mpr hsub
      exact completeTasks_marks_success hashf outcome order1 cp0 out0 p hord (hsucc p hp)
  have hempty : submitList (completeTasks hashf outcome order1 cp0 out0).1 hashf cands = [] := by
    rw [submitList, List.filter_eq_nil_iff]
    intro p hp
    simpa using hmarked p hp
  have horder2 : order2 = [] := by
    rw [hempty] at hperm2
    exact hperm2.eq_nil
  refine ⟨hmarked, hempty, ?_⟩
  rw [horder2]
  rfl

/-- C1 witness: a single candidate that succeeds in run one is marked, the
second run submits nothing, and the second run's output equals run one's. -/
theorem pipeline_second_run_idempotent_witness :
    (∀ p ∈ [0],
      (fun n : Nat => n) p ∈
        (completeTasks (fun n : Nat => n)
          (fun _ : Nat => (Except.ok ⟨['s'], 1⟩ : Except Unit Classification))
          [0] [] []).1) ∧
    submitList
        (completeTasks (fun n : Nat => n)
          (fun _ : Nat => (Except.ok ⟨['s'], 1⟩ : Except Unit Classification))
          [0] [] []).1 (fun n : Nat => n) [0] = [] ∧
    (completeTasks (fun n : Nat => n)
        (fun _ : Nat => (Except.ok ⟨['s'], 1⟩ : Except Unit Classification)) []
        (completeTasks (fun n : Nat => n)
          (fun _ : Nat => (Except.ok ⟨['s'], 1⟩ : Except Unit Classification))
          [0] [] []).1
        (completeTasks (fun n : Nat => n)
          (fun _ : Nat => (Except.ok ⟨['s'], 1⟩ : Except Unit Classification))
          [0] [] []).2).2 =
      (completeTasks (fun n : Nat => n)
        (fun _ : Nat => (Except.ok ⟨['s'], 1⟩ : Except Unit Classification))
        [0] [] []).2 :=
  pipeline_second_run_idempotent (fun n : Nat => n)
    (fun _ : Nat => (Except.ok ⟨['s'], 1⟩ : Except Unit Classification))
    [0] [0] [] [] [] (List.Perm.refl _) (fun _ _ => ⟨⟨['s'], 1⟩, rfl⟩)
    (List.Perm.refl _)

/-- C4: a task whose combined parse/classify outcome is a failure (after
retries are exhausted) leaves its fingerprint unmarked in the checkpoint set,
contributes no output record, and does not stop the run: every other task
with a successful outcome still has its record appended. -/
theorem pipeline_failure_isolation {Path Fp ε : Type} [DecidableEq Fp]
    (hashf : Path → Fp) (outcome : Path → Except ε Classification)
    (order : List Path) (cp0 : List Fp) (out0 : List (RunRecord Path Fp))
    (p : Path) (e : ε)
    (_hp : p ∈ order) (_hfail : outcome p = Except.error e)
    (hfresh : hashf p ∉ cp0)
    (hdistinct : ∀ q ∈ order, (∃ c, outcome q = Except.ok c) → hashf q ≠ hashf p) :
    hashf p ∉ (completeTasks hashf outcome order cp0 out0).1 ∧
    (∀ r ∈ (completeTasks hashf outcome order cp0 out0).2,
      r ∈ out0 ∨ r.id ≠ hashf p) ∧
    (∀ q ∈ order, ∀ c, outcome q = Except.ok c →
      mkRecord hashf q c ∈ (completeTasks hashf outcome order cp0 out0).2) := by
  refine ⟨completeTasks_cp_no_mark hashf outcome (hashf p) order cp0 out0 hfresh hdistinct,
    ?_, ?_⟩
  · intro r hr
    rw [completeTasks_out_eq hashf outcome order cp0 out0] at hr
    rcases List.mem_append.mp hr with h0 | h1
    · exact Or.inl h0
    · right
      obtain ⟨q, hq, hmap⟩ := List.mem_filterMap.mp h1
      cases houtq : outcome q with
      | ok c =>
        rw [houtq] at hmap
        have hrq : mkRecord hashf q c = r := by
          simpa using hmap
        rw [← hrq]
        exact hdistinct q hq ⟨c, houtq⟩
      | error e2 =>
        rw [houtq] at hmap
        simp at hmap
  · intro q hq c hc
    rw [completeTasks_out_eq hashf outcome order cp0 out0]
    refine List.mem_append.mpr (Or.inr ?_)
    exact List.mem_filterMap.mpr ⟨q, hq, by rw [hc]⟩

/-- C4 witness: of two tasks, task 0 fails and task 1 succeeds; task 0's
fingerprint is unmarked and has no record, while task 1's record is present. -/
theorem pipeline_failure_isolation_witness :
    (fun n : Nat => n) 0 ∉
      (completeTasks (fun n : Nat => n)
        (fun n : Nat =>
          (if n = 0 then Except.error () else Except.ok ⟨['s'], 2⟩ :
            Except Unit Classification))
        [0, 1] [] []).1 ∧
    (∀ r ∈ (completeTasks (fun n : Nat => n)
        (fun n : Nat =>
          (if n = 0 then Except.error () else Except.ok ⟨['s'], 2⟩ :
            Except Unit Classification))
        [0, 1] [] []).2,
      r ∈ ([] : List (RunRecord Nat Nat)) ∨ r.id ≠ (fun n : Nat => n) 0) ∧
    (∀ q ∈ [0, 1], ∀ c,
      (fun n : Nat =>
        (if n = 0 then Except.error () else Except.ok ⟨['s'], 2⟩ :
          Except Unit Classification)) q = Except.ok c →
      mkRecord (fun n : Nat => n) q c ∈
        (completeTasks (fun n : Nat => n)
          (fun n : Nat =>
            (if n = 0 then Except.error () else Except.ok ⟨['s'], 2⟩ :
              Except Unit Classification))
          [0, 1] [] []).2) :=
  pipeline_failure_isolation (fun n : Nat => n)
    (fun n : Nat =>
      (if n = 0 then Except.error () else Except.ok ⟨['s'], 2⟩ :
        Except Unit Classification))
    [0, 1] [] [] 0 () (by decide) (by rfl) (by simp)
    (by
      intro q hq hok
      fin_cases hq
      · rcases hok with ⟨c, hc⟩
        simp at hc
      · decide)
